import Mathlib

/-!
# examples/appsink/main.go

A shallow embedding of the two functions of the appsink example:

* `mainLoop`, the polling loop over the pipeline bus, as a total function from
  the messages queued on the bus to the returned error, the calls made on the
  pipeline, the bus and the messages (in order), and the messages left queued;
* the `NewSampleFunc` callback, as a function from what `sink.PullSample()`
  yields to the returned `gst.FlowReturn` and the printed `float64` values.
-/

namespace AppSink

/-! ## The bus loop -/

/-- The value `msg.ParseError()` yields (`*gst.GError`), identified by its text. -/
structure GError where
  message : String
  deriving DecidableEq

/-- What `msg.Type()` yields: the two types `mainLoop` has a case for, and any
other message type (state changes, tags, ...) under its numeric code. -/
inductive MessageType where
  | MessageEOS
  | MessageError
  | MessageOther (code : Nat)
  deriving DecidableEq

/-- A non-nil `*gst.Message` as `mainLoop` observes it, through `msg.Type()`
and `msg.ParseError()`. -/
structure Message where
  type : MessageType
  parseError : GError
  deriving DecidableEq

/-- An end-of-stream message. -/
def Message.eos : Message := ⟨.MessageEOS, ⟨""⟩⟩

/-- An error message carrying `e`. -/
def Message.error (e : String) : Message := ⟨.MessageError, ⟨e⟩⟩

/-- A message of another type. -/
def Message.other (code : Nat) : Message := ⟨.MessageOther code, ⟨""⟩⟩

/-- The calls `mainLoop` makes, in program order. -/
inductive Event where
  /-- The call `pipeline.SetState(gst.StatePlaying)`. -/
  | SetState
  /-- The call `pipeline.GetPipelineBus()`. -/
  | GetPipelineBus
  /-- The call `bus.TimedPop(time.Duration(-1))` with the value it yielded (`none` is nil). -/
  | TimedPop (msg : Option Message)
  /-- The call `msg.ParseError()`. -/
  | ParseError (msg : Message)
  /-- The call `msg.Unref()`. -/
  | Unref (msg : Message)
  /-- The call `pipeline.Destroy()`. -/
  | Destroy
  deriving DecidableEq

/-- Where control is once the `switch msg.Type()` statement has run: past the
end of the switch (`next`), or out of the function by `return` (`ret`). -/
inductive Control where
  | next
  | ret (err : Option GError)
  deriving DecidableEq

/-- The statement `switch msg.Type() { case gst.MessageEOS: ...; case
gst.MessageError: ... }` (lines 100-108).  The `break` of the `MessageEOS` case
terminates the innermost enclosing `for`, `switch` or `select` statement, which
is the switch: control continues past the end of the switch.  There is no
default case. -/
def switchType (msg : Message) : List Event × Control :=
  match msg.type with
  | .MessageEOS => ([.Unref msg], .next)
  | .MessageError => ([.ParseError msg, .Unref msg], .ret (some msg.parseError))
  | .MessageOther _ => ([], .next)

/-- What a run yields: the returned `error` (`none` is nil), the calls made in
order, and the messages still queued on the bus. -/
structure Outcome where
  err : Option GError
  trace : List Event
  bus : List Message
  deriving DecidableEq

/-- The `for { ... }` statement (lines 95-110) run on a bus holding the given
messages; `TimedPop` yields nil once the bus holds none.  One iteration pops a
message, leaves the loop on nil, runs the switch, and, unless the switch
returned, runs the `msg.Unref()` of line 109 and iterates. -/
def forLoop : List Message → Outcome
  | [] => ⟨none, [.TimedPop none], []⟩
  | msg :: bus =>
    match switchType msg with
    | (evs, .ret e) => ⟨e, .TimedPop (some msg) :: evs, bus⟩
    | (evs, .next) =>
      let rest := forLoop bus
      ⟨rest.err, .TimedPop (some msg) :: (evs ++ .Unref msg :: rest.trace), rest.bus⟩

/-- The function `mainLoop` (lines 84-113): the deferred `pipeline.Destroy()`
runs when the function returns, by `return err` or by the final `return nil`. -/
def mainLoop (bus : List Message) : Outcome :=
  let r := forLoop bus
  ⟨r.err, .SetState :: .GetPipelineBus :: (r.trace ++ [.Destroy]), r.bus⟩

/-- The messages a run popped, in order. -/
def popped : List Event → List Message
  | [] => []
  | .TimedPop (some m) :: t => m :: popped t
  | _ :: t => popped t

/-- The number of `TimedPop` calls of a run. -/
def popCalls (t : List Event) : Nat :=
  t.countP (fun e => match e with | .TimedPop _ => true | _ => false)

/-- The number of `Unref` calls at the head of a run, up to the next
`TimedPop` call or the end of the run. -/
def unrefsBeforePop : List Event → Nat
  | [] => 0
  | .TimedPop _ :: _ => 0
  | .Unref _ :: t => unrefsBeforePop t + 1
  | _ :: t => unrefsBeforePop t

/-- For each popped message, in order, how many times `Unref` was called
between its pop and the next pop (or the return). -/
def unrefCounts : List Event → List Nat
  | [] => []
  | .TimedPop (some _) :: t => unrefsBeforePop t :: unrefCounts t
  | _ :: t => unrefCounts t

/-! ## The new-sample callback -/

/-- The `gst.FlowReturn` values the callback returns. -/
inductive FlowReturn where
  | FlowOK
  | FlowEOS
  | FlowError
  deriving DecidableEq

/-- A non-nil `*gst.Buffer`.  `mappable` tells whether the buffer can be mapped
for reading; the callback never tests it.  `mapAsInt16Slice` is what the one
expression the callback applies to the buffer,
`buffer.Map(gst.MapRead).AsInt16Slice()`, yields: the `int16` values of the
slice, or `none` when evaluating the expression yields no slice (`Map` and
`AsInt16Slice` belong to the `gst` package). -/
structure Buffer where
  mappable : Bool
  mapAsInt16Slice : Option (List Int)
  deriving DecidableEq

/-- A non-nil `*gst.Sample`, through `sample.GetBuffer()` (`none` is nil). -/
structure Sample where
  getBuffer : Option Buffer
  deriving DecidableEq

/-- The `*app.Sink` handed to the callback, through `sink.PullSample()`
(`none` is nil). -/
structure Sink where
  pullSample : Option Sample
  deriving DecidableEq

/-- The values of Go's `int16`. -/
def IsInt16 (z : Int) : Prop := -32768 ≤ z ∧ z ≤ 32767

instance (z : Int) : Decidable (IsInt16 z) := by
  unfold IsInt16; infer_instance

/-- The result of an `int16` operation whose mathematical value is `z`: Go
integer arithmetic wraps around, keeping the low 16 bits in two's complement. -/
def wrapInt16 (z : Int) : Int := (z + 32768) % 65536 - 32768

/-- One iteration of `for _, i := range samples { square += float64(i * i) }`:
`i * i` is an `int16` product, converted to `float64` (exactly) and added. -/
def squareStep (square i : Int) : Int := square + wrapInt16 (i * i)

/-- The sum the loop of lines 71-73 accumulates, taken in the integers: what the
accumulator `square` holds as long as no `float64` addition rounds (while the
sum stays below `2 ^ 53` in magnitude); see `squareFloat64`. -/
def square (samples : List Int) : Int := samples.foldl squareStep 0

/-- The nearest `float64` to a natural number, ties to the even significand
(53 significant bits). -/
def roundFloat64Nat (n : Nat) : Nat :=
  if n < 2 ^ 53 then n
  else
    let e := Nat.log2 n - 52
    let q := n / 2 ^ e
    let r := n % 2 ^ e
    let half := 2 ^ (e - 1)
    if r < half then q * 2 ^ e
    else if half < r then (q + 1) * 2 ^ e
    else if q % 2 = 0 then q * 2 ^ e
    else (q + 1) * 2 ^ e

/-- The nearest `float64` to an integer. -/
def roundFloat64 (z : Int) : Int :=
  if 0 ≤ z then (roundFloat64Nat z.toNat : Int) else -(roundFloat64Nat (-z).toNat : Int)

/-- The `float64` accumulator `square` when the loop of lines 71-73 ends: it
starts at `0` and each addition is rounded to the nearest `float64`.  The
values it takes are integers, far below the largest `float64` for any slice
(a slice holds fewer than `2 ^ 63` samples). -/
def squareFloat64 (samples : List Int) : Int :=
  samples.foldl (fun square i => roundFloat64 (squareStep square i)) 0

/-- The operands of the division of line 74 as integers: the accumulator and
the number of samples. -/
structure Rms where
  square : Int
  len : Nat
  deriving DecidableEq

/-- The exact quotient `square / len` under the square root, for `0 < len`. -/
def Rms.radicand (r : Rms) : ℚ := (r.square : ℚ) / (r.len : ℚ)

/-- The `float64` values line 74 works on: not-a-number, the two infinities,
and the finite values as rationals.  The callback yields no negative zero (the
accumulator starts at `+0` and `float64(len(samples))` is never `-0`), so zero
is `finite 0`. -/
inductive Float64 where
  | NaN
  | Inf (negative : Bool)
  | finite (q : ℚ)
  deriving DecidableEq

/-- The nearest integer to a rational, ties to the even integer. -/
def roundHalfEven (q : ℚ) : Int :=
  let f := ⌊q⌋
  if q - f < 1 / 2 then f
  else if 1 / 2 < q - f then f + 1
  else if f % 2 = 0 then f
  else f + 1

/-- The `float64` nearest to a rational, ties to the even significand (IEEE 754
binary64, round to nearest even): 53 significant bits, the unit in the last
place no smaller than `2 ^ (-1074)`, and an infinity from `2 ^ 1024` on. -/
def roundToFloat64 (q : ℚ) : Float64 :=
  if q = 0 then .finite 0
  else
    let e := max (Int.log 2 |q| - 52) (-1074)
    let r := (roundHalfEven (q / 2 ^ e) : ℚ) * 2 ^ e
    if 2 ^ 1024 ≤ |r| then .Inf (decide (q < 0)) else .finite r

/-- The `float64` division `a / b` of line 74 on two finite operands holding
the integers `a` and `b`: `0 / 0` is not-a-number, another `a / 0` is an
infinity, and any other quotient is rounded. -/
def float64Div (a b : Int) : Float64 :=
  if b = 0 then (if a = 0 then .NaN else .Inf (decide (a < 0)))
  else roundToFloat64 ((a : ℚ) / (b : ℚ))

/-- The `float64` nearest to the square root of a positive rational `q`.  With
`h` such that the root lies in `[2 ^ (h + 52), 2 ^ (h + 53))` and `s` the
integer part of twice the root in units of `2 ^ h`, the significand is
`(s + 1) / 2`.  (The root of a `float64` is never halfway between two
`float64` values.) -/
def sqrtToFloat64 (q : ℚ) : ℚ :=
  let h := Int.log 2 q / 2 - 52
  let s := Nat.sqrt ⌊4 * (q / 4 ^ h)⌋₊
  (((s + 1) / 2 : Nat) : ℚ) * 2 ^ h

/-- The function `math.Sqrt`: not-a-number on not-a-number and on negative
arguments, the argument itself on `+Inf` and on zero, and the correctly rounded
root otherwise. -/
def mathSqrt : Float64 → Float64
  | .NaN => .NaN
  | .Inf negative => if negative then .NaN else .Inf false
  | .finite q =>
    if q < 0 then .NaN
    else if q = 0 then .finite 0
    else .finite (sqrtToFloat64 q)

/-- The value `rms := math.Sqrt(square / float64(len(samples)))` of line 74:
`square` is the `float64` accumulator of lines 70-73 and `float64(len(samples))`
the conversion of the length, rounded to the nearest `float64`. -/
def rms (samples : List Int) : Float64 :=
  mathSqrt (float64Div (squareFloat64 samples) (roundFloat64 (samples.length : Int)))

/-- The `NewSampleFunc` callback (lines 46-78): the returned flow value with
the values printed by `fmt.Println("rms:", rms)`.  The result of `Map` is not
tested.  Where the expression of line 66 yields no slice the callback returns
no flow value (`none`); the one `return` below line 66 is `return gst.FlowOK`. -/
def NewSampleFunc (sink : Sink) : Option (FlowReturn × List Float64) :=
  match sink.pullSample with
  | none => some (.FlowEOS, [])
  | some sample =>
    match sample.getBuffer with
    | none => some (.FlowError, [])
    | some buffer =>
      match buffer.mapAsInt16Slice with
      | none => none
      | some samples => some (.FlowOK, [rms samples])

/-- A sink whose pulled sample holds a buffer that maps to the given samples. -/
def Sink.ofSamples (samples : List Int) : Sink := ⟨some ⟨some ⟨true, some samples⟩⟩⟩

/-- The sum of the squares of the samples, as integers (`sum(x_i^2)`). -/
def exactSumSquares (samples : List Int) : Int := (samples.map fun x => x * x).sum

/-! ## The bus loop: one iteration -/

theorem forLoop_nil : forLoop [] = ⟨none, [.TimedPop none], []⟩ := rfl

theorem forLoop_cons_error (msg : Message) (bus : List Message)
    (h : msg.type = .MessageError) :
    forLoop (msg :: bus)
      = ⟨some msg.parseError, [.TimedPop (some msg), .ParseError msg, .Unref msg], bus⟩ := by
  simp [forLoop, switchType, h]

theorem forLoop_cons_eos (msg : Message) (bus : List Message)
    (h : msg.type = .MessageEOS) :
    forLoop (msg :: bus)
      = ⟨(forLoop bus).err,
          .TimedPop (some msg) :: .Unref msg :: .Unref msg :: (forLoop bus).trace,
          (forLoop bus).bus⟩ := by
  simp [forLoop, switchType, h]

theorem forLoop_cons_other (msg : Message) (bus : List Message)
    (h₁ : msg.type ≠ .MessageEOS) (h₂ : msg.type ≠ .MessageError) :
    forLoop (msg :: bus)
      = ⟨(forLoop bus).err,
          .TimedPop (some msg) :: .Unref msg :: (forLoop bus).trace,
          (forLoop bus).bus⟩ := by
  cases hty : msg.type with
  | MessageEOS => exact absurd hty h₁
  | MessageError => exact absurd hty h₂
  | MessageOther c => simp [forLoop, switchType, hty]

/-! ## Observations on traces -/

theorem popped_append (a b : List Event) : popped (a ++ b) = popped a ++ popped b := by
  induction a with
  | nil => rfl
  | cons e t ih =>
    cases e with
    | TimedPop m => cases m <;> simp [popped, ih]
    | _ => simp [popped, ih]

theorem popCalls_append (a b : List Event) : popCalls (a ++ b) = popCalls a + popCalls b := by
  simp [popCalls, List.countP_append]

theorem unrefsBeforePop_append_destroy (t : List Event) :
    unrefsBeforePop (t ++ [.Destroy]) = unrefsBeforePop t := by
  induction t with
  | nil => rfl
  | cons e t ih => cases e <;> simp [unrefsBeforePop, ih]

theorem unrefCounts_append_destroy (t : List Event) :
    unrefCounts (t ++ [.Destroy]) = unrefCounts t := by
  induction t with
  | nil => rfl
  | cons e t ih =>
    cases e with
    | TimedPop m => cases m <;> simp [unrefCounts, ih, unrefsBeforePop_append_destroy]
    | _ => simp [unrefCounts, ih]

theorem popped_mainLoop (bus : List Message) :
    popped (mainLoop bus).trace = popped (forLoop bus).trace := by
  simp [mainLoop, popped, popped_append]

theorem popCalls_mainLoop (bus : List Message) :
    popCalls (mainLoop bus).trace = popCalls (forLoop bus).trace := by
  simp [mainLoop, popCalls, List.countP_append, List.countP_cons]

theorem unrefCounts_mainLoop (bus : List Message) :
    unrefCounts (mainLoop bus).trace = unrefCounts (forLoop bus).trace := by
  simp [mainLoop, unrefCounts, unrefCounts_append_destroy]

theorem getLast?_cons_of_ne_nil (e : Event) (t : List Event) (h : t ≠ []) :
    (e :: t).getLast? = t.getLast? := by
  cases t with
  | nil => exact absurd rfl h
  | cons a t => exact List.getLast?_cons_cons

/-! ## The bus loop: whole runs -/

/-- Every iteration starts with a pop. -/
theorem unrefsBeforePop_forLoop (bus : List Message) :
    unrefsBeforePop (forLoop bus).trace = 0 := by
  cases bus with
  | nil => rfl
  | cons msg bus =>
    by_cases he : msg.type = .MessageError
    · rw [forLoop_cons_error _ _ he]; rfl
    · by_cases hs : msg.type = .MessageEOS
      · rw [forLoop_cons_eos _ _ hs]; rfl
      · rw [forLoop_cons_other _ _ hs he]; rfl

/-- An end-of-stream message does not end the loop: the run goes on with the
messages behind it. -/
theorem forLoop_eos_continues (msg : Message) (bus : List Message)
    (h : msg.type = .MessageEOS) :
    (forLoop (msg :: bus)).err = (forLoop bus).err ∧
    (forLoop (msg :: bus)).bus = (forLoop bus).bus ∧
    popCalls (forLoop (msg :: bus)).trace = popCalls (forLoop bus).trace + 1 := by
  rw [forLoop_cons_eos _ _ h]
  simp [popCalls, List.countP_cons]

/-- A run over messages none of which is an error message pops them all, then
pops nil, and returns nil. -/
theorem forLoop_no_error (bus : List Message)
    (h : ∀ m ∈ bus, m.type ≠ .MessageError) :
    (forLoop bus).err = none ∧ (forLoop bus).bus = [] ∧
    popped (forLoop bus).trace = bus ∧
    popCalls (forLoop bus).trace = bus.length + 1 ∧
    (forLoop bus).trace.getLast? = some (.TimedPop none) := by
  induction bus with
  | nil => simp [forLoop, popped, popCalls]
  | cons msg bus ih =>
    have he : msg.type ≠ .MessageError := h msg (List.mem_cons_self _ _)
    obtain ⟨h1, h2, h3, h4, h5⟩ := ih (fun m hm => h m (List.mem_cons_of_mem _ hm))
    have hne : (forLoop bus).trace ≠ [] := by
      intro hnil; rw [hnil] at h5; simp at h5
    by_cases hs : msg.type = .MessageEOS
    · rw [forLoop_cons_eos _ _ hs]
      simp only [popCalls] at h4
      simp [popped, popCalls, List.countP_cons, h1, h2, h3, h4, h5,
        getLast?_cons_of_ne_nil _ _ hne]
    · rw [forLoop_cons_other _ _ hs he]
      simp only [popCalls] at h4
      simp [popped, popCalls, List.countP_cons, h1, h2, h3, h4, h5,
        getLast?_cons_of_ne_nil _ _ hne]

/-- A run over messages the first error message of which is `msg` pops the
messages before it and `msg`, and returns the error `msg` carries; the
messages behind `msg` stay on the bus. -/
theorem forLoop_append_error (pre rest : List Message) (msg : Message)
    (hpre : ∀ m ∈ pre, m.type ≠ .MessageError) (hmsg : msg.type = .MessageError) :
    (forLoop (pre ++ msg :: rest)).err = some msg.parseError ∧
    (forLoop (pre ++ msg :: rest)).bus = rest ∧
    popped (forLoop (pre ++ msg :: rest)).trace = pre ++ [msg] ∧
    popCalls (forLoop (pre ++ msg :: rest)).trace = pre.length + 1 := by
  induction pre with
  | nil =>
    rw [List.nil_append, forLoop_cons_error _ _ hmsg]
    simp [popped, popCalls, List.countP_cons]
  | cons m pre ih =>
    have he : m.type ≠ .MessageError := hpre m (List.mem_cons_self _ _)
    obtain ⟨h1, h2, h3, h4⟩ := ih (fun x hx => hpre x (List.mem_cons_of_mem _ hx))
    simp only [popCalls] at h4
    rw [List.cons_append]
    by_cases hs : m.type = .MessageEOS
    · rw [forLoop_cons_eos _ _ hs]
      simp [popped, popCalls, List.countP_cons, h1, h2, h3, h4]
    · rw [forLoop_cons_other _ _ hs he]
      simp [popped, popCalls, List.countP_cons, h1, h2, h3, h4]

/-- The loop itself neither sets the state nor destroys the pipeline. -/
theorem forLoop_trace_count (bus : List Message) :
    (forLoop bus).trace.count .Destroy = 0 ∧ (forLoop bus).trace.count .SetState = 0 := by
  induction bus with
  | nil => simp [forLoop]
  | cons msg bus ih =>
    by_cases he : msg.type = .MessageError
    · rw [forLoop_cons_error _ _ he]; simp
    · by_cases hs : msg.type = .MessageEOS
      · rw [forLoop_cons_eos _ _ hs]; simpa using ih
      · rw [forLoop_cons_other _ _ hs he]; simpa using ih

/-- How often each popped message is released: an end-of-stream message twice
(lines 102 and 109), any other message once (line 106, or line 109). -/
theorem unrefCounts_forLoop (bus : List Message) :
    unrefCounts (forLoop bus).trace
      = (popped (forLoop bus).trace).map
          (fun m => if m.type = .MessageEOS then 2 else 1) := by
  induction bus with
  | nil => simp [forLoop, unrefCounts, popped]
  | cons msg bus ih =>
    by_cases he : msg.type = .MessageError
    · rw [forLoop_cons_error _ _ he]
      simp [unrefCounts, unrefsBeforePop, popped, he]
    · by_cases hs : msg.type = .MessageEOS
      · rw [forLoop_cons_eos _ _ hs]
        simp [unrefCounts, unrefsBeforePop, popped, hs, ih, unrefsBeforePop_forLoop]
      · rw [forLoop_cons_other _ _ hs he]
        simp [unrefCounts, unrefsBeforePop, popped, hs, ih, unrefsBeforePop_forLoop]

/-! ## The claims on `mainLoop` -/

/-- C1, at the input `[Eos, Error("device lost")]`: the run does not stop at
the end-of-stream message.  It releases that message twice, pops the error
message behind it and returns that error instead of nil. -/
theorem mainLoop_eos_then_error :
    (mainLoop [Message.eos, Message.error "device lost"]).err = some ⟨"device lost"⟩ ∧
    popCalls (mainLoop [Message.eos, Message.error "device lost"]).trace = 2 ∧
    popped (mainLoop [Message.eos, Message.error "device lost"]).trace
      = [Message.eos, Message.error "device lost"] ∧
    (mainLoop [Message.eos, Message.error "device lost"]).bus = [] := by
  decide

/-- C2: when the bus holds messages that are neither end-of-stream nor error
messages, then an error message `msg`, then any messages `rest`, `mainLoop`
returns the error `msg` carries, having popped the messages up to `msg` and no
message of `rest`. -/
theorem mainLoop_returns_first_error (pre rest : List Message) (msg : Message)
    (hpre : ∀ m ∈ pre, m.type ≠ .MessageEOS ∧ m.type ≠ .MessageError)
    (hmsg : msg.type = .MessageError) :
    (mainLoop (pre ++ msg :: rest)).err = some msg.parseError ∧
    (mainLoop (pre ++ msg :: rest)).bus = rest ∧
    popped (mainLoop (pre ++ msg :: rest)).trace = pre ++ [msg] ∧
    popCalls (mainLoop (pre ++ msg :: rest)).trace = pre.length + 1 := by
  obtain ⟨h1, h2, h3, h4⟩ :=
    forLoop_append_error pre rest msg (fun m hm => (hpre m hm).2) hmsg
  rw [popped_mainLoop, popCalls_mainLoop]
  exact ⟨h1, h2, h3, h4⟩

/-- C2 at `[Error("device lost")]` and at `[Other, Other, Error("device lost"), Other, Eos]`. -/
theorem mainLoop_returns_first_error_witness :
    (mainLoop [Message.error "device lost"]).err = some ⟨"device lost"⟩ ∧
    (mainLoop ([Message.other 4, Message.other 64] ++
        Message.error "device lost" :: [Message.other 4, Message.eos])).err
      = some ⟨"device lost"⟩ ∧
    (mainLoop ([Message.other 4, Message.other 64] ++
        Message.error "device lost" :: [Message.other 4, Message.eos])).bus
      = [Message.other 4, Message.eos] :=
  ⟨(mainLoop_returns_first_error [] [] (Message.error "device lost")
      (by decide) rfl).1,
   (mainLoop_returns_first_error [Message.other 4, Message.other 64]
      [Message.other 4, Message.eos] (Message.error "device lost") (by decide) rfl).1,
   (mainLoop_returns_first_error [Message.other 4, Message.other 64]
      [Message.other 4, Message.eos] (Message.error "device lost") (by decide) rfl).2.1⟩

/-- C3: when the bus holds finitely many messages none of which is an error
message, and then reports no message, `mainLoop` returns nil, having popped
every message; the last pop is the one that yielded nil. -/
theorem mainLoop_no_error (bus : List Message)
    (h : ∀ m ∈ bus, m.type ≠ .MessageError) :
    (mainLoop bus).err = none ∧ (mainLoop bus).bus = [] ∧
    popped (mainLoop bus).trace = bus ∧
    popCalls (mainLoop bus).trace = bus.length + 1 := by
  obtain ⟨h1, h2, h3, h4, _⟩ := forLoop_no_error bus h
  rw [popped_mainLoop, popCalls_mainLoop]
  exact ⟨h1, h2, h3, h4⟩

/-- C3 at `[Other, Other, Eos]`. -/
theorem mainLoop_no_error_witness :
    (mainLoop [Message.other 4, Message.other 64, Message.eos]).err = none :=
  (mainLoop_no_error [Message.other 4, Message.other 64, Message.eos] (by decide)).1

/-- C8: on every run of `mainLoop` the first call is `SetState`, the last call
is `Destroy`, and each is made exactly once; so the pipeline is destroyed once,
after the state was set and after every pop, whatever the outcome. -/
theorem mainLoop_destroys_once (bus : List Message) :
    (mainLoop bus).trace.head? = some .SetState ∧
    (mainLoop bus).trace.getLast? = some .Destroy ∧
    (mainLoop bus).trace.count .Destroy = 1 ∧
    (mainLoop bus).trace.count .SetState = 1 := by
  obtain ⟨hd, hs⟩ := forLoop_trace_count bus
  refine ⟨rfl, ?_, ?_, ?_⟩
  · show (Event.SetState :: Event.GetPipelineBus ::
        ((forLoop bus).trace ++ [Event.Destroy])).getLast? = some Event.Destroy
    rw [← List.cons_append, ← List.cons_append, List.getLast?_append]
    rfl
  · simp [mainLoop, List.count_cons, List.count_append, hd]
  · simp [mainLoop, List.count_cons, List.count_append, hs]

/-- C10, at the input `[Eos]`: the end-of-stream message is released twice
between its pop and the next pop, not once. -/
theorem mainLoop_unref_eos_twice :
    (mainLoop [Message.eos]).trace
      = [.SetState, .GetPipelineBus, .TimedPop (some Message.eos),
         .Unref Message.eos, .Unref Message.eos, .TimedPop none, .Destroy] ∧
    unrefCounts (mainLoop [Message.eos]).trace = [2] := by
  decide

/-! ## The accumulator -/

theorem wrapInt16_isInt16 (z : Int) : IsInt16 (wrapInt16 z) := by
  unfold IsInt16 wrapInt16; omega

theorem wrapInt16_of_isInt16 (z : Int) (h : IsInt16 z) : wrapInt16 z = z := by
  unfold IsInt16 at h; unfold wrapInt16; omega

/-- The product `i * i` fits in an `int16` exactly when `|i| ≤ 181`. -/
theorem mul_self_isInt16_iff (i : Int) : IsInt16 (i * i) ↔ |i| ≤ 181 := by
  unfold IsInt16
  rw [abs_le]
  constructor
  · rintro ⟨_, h⟩
    constructor <;> nlinarith
  · rintro ⟨h1, h2⟩
    constructor <;> nlinarith

theorem foldl_squareStep (samples : List Int) (acc : Int) :
    samples.foldl squareStep acc = acc + square samples := by
  unfold square
  induction samples generalizing acc with
  | nil => simp
  | cons i t ih =>
    rw [List.foldl_cons, List.foldl_cons, ih, ih (squareStep 0 i)]
    simp only [squareStep]; ring

theorem square_cons (i : Int) (t : List Int) :
    square (i :: t) = wrapInt16 (i * i) + square t := by
  show (i :: t).foldl squareStep 0 = _
  rw [List.foldl_cons, foldl_squareStep]
  simp [squareStep]

/-- The accumulator is the exact sum of squares when every product fits. -/
theorem square_eq_exactSumSquares (samples : List Int)
    (h : ∀ x ∈ samples, |x| ≤ 181) : square samples = exactSumSquares samples := by
  induction samples with
  | nil => rfl
  | cons i t ih =>
    have hi : |i| ≤ 181 := h i (List.mem_cons_self _ _)
    rw [square_cons, ih (fun x hx => h x (List.mem_cons_of_mem _ hx)),
      wrapInt16_of_isInt16 _ ((mul_self_isInt16_iff i).2 hi)]
    simp [exactSumSquares]

theorem exactSumSquares_nonneg (samples : List Int) : 0 ≤ exactSumSquares samples := by
  induction samples with
  | nil => simp [exactSumSquares]
  | cons i t ih =>
    have : exactSumSquares (i :: t) = i * i + exactSumSquares t := by simp [exactSumSquares]
    rw [this]; nlinarith [mul_self_nonneg i]

/-- For one sample the accumulator is the square of the sample exactly when
the product fits in an `int16`. -/
theorem square_singleton_eq_iff (x : Int) : square [x] = x * x ↔ |x| ≤ 181 := by
  rw [← mul_self_isInt16_iff]
  have hs : square [x] = wrapInt16 (x * x) := by simp [square, squareStep]
  rw [hs]
  constructor
  · intro h; rw [← h]; exact wrapInt16_isInt16 _
  · exact wrapInt16_of_isInt16 _

/-! ## The accumulator as a `float64` -/

theorem roundFloat64_of_lt (z : Int) (h : |z| < 2 ^ 53) : roundFloat64 z = z := by
  rw [abs_lt] at h
  unfold roundFloat64 roundFloat64Nat
  split
  · rw [if_pos (by omega)]; omega
  · rw [if_pos (by omega)]; omega

theorem foldl_roundFloat64 (samples : List Int) (acc : Int)
    (h : |acc| + 32768 * (samples.length : Int) < 2 ^ 53) :
    samples.foldl (fun square i => roundFloat64 (squareStep square i)) acc
      = samples.foldl squareStep acc ∧
    |samples.foldl squareStep acc| ≤ |acc| + 32768 * (samples.length : Int) := by
  induction samples generalizing acc with
  | nil => simp
  | cons i t ih =>
    have hw := wrapInt16_isInt16 (i * i)
    unfold IsInt16 at hw
    have hlen : ((i :: t).length : Int) = (t.length : Int) + 1 := by simp
    rw [hlen] at h ⊢
    have hstep : |squareStep acc i| ≤ |acc| + 32768 := by
      unfold squareStep
      rw [abs_le]
      have h1 := neg_abs_le acc
      have h2 := le_abs_self acc
      constructor <;> omega
    have hlt : |squareStep acc i| < 2 ^ 53 := by
      have : (0 : Int) ≤ (t.length : Int) := Int.natCast_nonneg _
      omega
    rw [List.foldl_cons, List.foldl_cons, roundFloat64_of_lt _ hlt]
    obtain ⟨e1, e2⟩ := ih (squareStep acc i) (by omega)
    exact ⟨e1, by omega⟩

/-- On a buffer of fewer than `2 ^ 38` samples no `float64` addition rounds:
the accumulator holds the integer `square samples`. -/
theorem squareFloat64_eq_square (samples : List Int) (h : samples.length < 2 ^ 38) :
    squareFloat64 samples = square samples := by
  have hl : (samples.length : Int) < 2 ^ 38 := by exact_mod_cast h
  exact (foldl_roundFloat64 samples 0 (by simp; omega)).1

/-! ## The `float64` operations of line 74 -/

theorem log_two_eq (r : ℚ) (k : ℤ) (hr : 0 < r) (h1 : (2 : ℚ) ^ k ≤ r)
    (h2 : r < (2 : ℚ) ^ (k + 1)) : Int.log 2 r = k := by
  have hb : 1 < 2 := by norm_num
  have a1 : k ≤ Int.log 2 r := (Int.zpow_le_iff_le_log hb hr).1 (by exact_mod_cast h1)
  have a2 : Int.log 2 r < k + 1 := (Int.lt_zpow_iff_log_lt hb hr).1 (by exact_mod_cast h2)
  omega

theorem roundHalfEven_intCast (z : ℤ) : roundHalfEven (z : ℚ) = z := by
  simp [roundHalfEven]

/-- Rounding leaves a `float64` value as it is: `m * 2 ^ k` with a significand
below `2 ^ 53`, an exponent from `-1074` on, and a magnitude below `2 ^ 1024`. -/
theorem roundToFloat64_representable (m k : ℤ) (hm : |m| < 2 ^ 53) (hk : -1074 ≤ k)
    (hlt : |(m : ℚ)| * 2 ^ k < 2 ^ 1024) :
    roundToFloat64 ((m : ℚ) * 2 ^ k) = .finite ((m : ℚ) * 2 ^ k) := by
  by_cases h0 : m = 0
  · simp [h0, roundToFloat64]
  have h2k : (0 : ℚ) < 2 ^ k := zpow_pos (by norm_num) k
  have hq0 : (m : ℚ) * 2 ^ k ≠ 0 := mul_ne_zero (by exact_mod_cast h0) h2k.ne'
  have habs : |(m : ℚ) * 2 ^ k| = |(m : ℚ)| * 2 ^ k := by
    rw [abs_mul, abs_of_pos h2k]
  have hqpos : 0 < |(m : ℚ) * 2 ^ k| := abs_pos.2 hq0
  have hmq : |(m : ℚ)| < 2 ^ (53 : ℤ) := by
    have h1 : ((|m| : ℤ) : ℚ) < ((2 ^ 53 : ℤ) : ℚ) := by exact_mod_cast hm
    rw [Int.cast_abs] at h1
    have h2 : ((2 : ℚ) ^ (53 : ℤ)) = ((2 ^ 53 : ℤ) : ℚ) := by norm_num
    rw [h2]; exact h1
  have hlog : Int.log 2 |(m : ℚ) * 2 ^ k| - 52 ≤ k := by
    have hb : 1 < 2 := by norm_num
    have : |(m : ℚ) * 2 ^ k| < ((2 : ℕ) : ℚ) ^ (53 + k) := by
      rw [habs, zpow_add₀ (by norm_num)]
      push_cast
      exact mul_lt_mul_of_pos_right hmq h2k
    have := (Int.lt_zpow_iff_log_lt hb hqpos).1 this
    omega
  set e := max (Int.log 2 |(m : ℚ) * 2 ^ k| - 52) (-1074) with he
  have hek : e ≤ k := max_le hlog hk
  have hdiv : (m : ℚ) * 2 ^ k / 2 ^ e = ((m * 2 ^ (k - e).toNat : ℤ) : ℚ) := by
    push_cast
    rw [mul_div_assoc, ← zpow_sub₀ (by norm_num)]
    congr 1
    rw [← zpow_natCast, Int.toNat_of_nonneg (by omega)]
  have hback : ((m * 2 ^ (k - e).toNat : ℤ) : ℚ) * 2 ^ e = (m : ℚ) * 2 ^ k := by
    rw [← hdiv]
    field_simp
  unfold roundToFloat64
  rw [if_neg hq0]
  simp only []
  rw [← he, hdiv, roundHalfEven_intCast, hback, habs, if_neg (not_le.2 hlt)]

theorem roundToFloat64_intCast (z : ℤ) (hz : |z| < 2 ^ 53) :
    roundToFloat64 (z : ℚ) = .finite (z : ℚ) := by
  have h := roundToFloat64_representable z 0 hz (by norm_num) (by
    have h1 : ((|z| : ℤ) : ℚ) < ((2 ^ 53 : ℤ) : ℚ) := by exact_mod_cast hz
    rw [Int.cast_abs] at h1
    have h2 : |(z : ℚ)| < 2 ^ 53 := by
      have h3 : ((2 : ℚ) ^ 53) = ((2 ^ 53 : ℤ) : ℚ) := by norm_num
      rw [h3]; exact h1
    calc |(z : ℚ)| * 2 ^ (0 : ℤ) = |(z : ℚ)| := by simp
      _ < 2 ^ 53 := h2
      _ < 2 ^ 1024 := by norm_num)
  simpa using h

/-! ## The `float64` accumulator on long buffers -/

theorem exactSumSquares_cons (i : Int) (t : List Int) :
    exactSumSquares (i :: t) = i * i + exactSumSquares t := by
  simp [exactSumSquares]

theorem exactSumSquares_le (samples : List Int) (h : ∀ x ∈ samples, |x| ≤ 181) :
    exactSumSquares samples ≤ 32761 * (samples.length : Int) := by
  induction samples with
  | nil => simp [exactSumSquares]
  | cons i t ih =>
    have hi := (mul_self_isInt16_iff i).2 (h i (List.mem_cons_self _ _))
    have hi2 : i * i ≤ 32761 := by
      have := abs_le.1 (h i (List.mem_cons_self _ _))
      nlinarith
    have := ih (fun x hx => h x (List.mem_cons_of_mem _ hx))
    rw [exactSumSquares_cons, List.length_cons]
    push_cast
    omega

theorem foldl_roundFloat64_exact (samples : List Int) (acc : Int)
    (h : ∀ x ∈ samples, |x| ≤ 181) (h0 : 0 ≤ acc)
    (hlt : acc + exactSumSquares samples < 2 ^ 53) :
    samples.foldl (fun square i => roundFloat64 (squareStep square i)) acc
      = acc + exactSumSquares samples := by
  induction samples generalizing acc with
  | nil => simp [exactSumSquares]
  | cons i t ih =>
    have hw : wrapInt16 (i * i) = i * i :=
      wrapInt16_of_isInt16 _ ((mul_self_isInt16_iff i).2 (h i (List.mem_cons_self _ _)))
    have hii : 0 ≤ i * i := mul_self_nonneg i
    have ht := exactSumSquares_nonneg t
    rw [exactSumSquares_cons] at hlt
    have hstep : squareStep acc i = acc + i * i := by rw [squareStep, hw]
    have hr : roundFloat64 (squareStep acc i) = acc + i * i := by
      rw [hstep]
      apply roundFloat64_of_lt
      rw [abs_of_nonneg (by omega)]
      omega
    rw [List.foldl_cons, hr, ih (acc + i * i) (fun x hx => h x (List.mem_cons_of_mem _ hx))
      (by omega) (by omega), exactSumSquares_cons]
    ring

/-- While the sum of squares stays below `2 ^ 53` no addition rounds. -/
theorem squareFloat64_eq_exactSumSquares (samples : List Int)
    (h : ∀ x ∈ samples, |x| ≤ 181) (hlt : exactSumSquares samples < 2 ^ 53) :
    squareFloat64 samples = exactSumSquares samples := by
  have := foldl_roundFloat64_exact samples 0 h le_rfl (by simpa using hlt)
  simpa [squareFloat64] using this

theorem squareFloat64_concat (samples : List Int) (i : Int) :
    squareFloat64 (samples ++ [i]) = roundFloat64 (squareStep (squareFloat64 samples) i) := by
  simp [squareFloat64, List.foldl_append]

theorem exactSumSquares_replicate (n : Nat) (x : Int) :
    exactSumSquares (List.replicate n x) = (n : Int) * (x * x) := by
  simp [exactSumSquares, List.map_replicate, List.sum_replicate]

theorem roundFloat64_above_two_pow_53 :
    roundFloat64 9007199254751467 = 9007199254751468 := by
  have hl : Nat.log2 9007199254751467 = 53 := by
    have h1 : 53 ≤ Nat.log2 9007199254751467 := (Nat.le_log2 (by norm_num)).2 (by norm_num)
    have h2 : Nat.log2 9007199254751467 < 54 := (Nat.log2_lt (by norm_num)).2 (by norm_num)
    omega
  have hn : roundFloat64Nat 9007199254751467 = 9007199254751468 := by
    unfold roundFloat64Nat
    rw [hl]
    norm_num
  have ht : Int.toNat 9007199254751467 = 9007199254751467 := rfl
  unfold roundFloat64
  rw [if_pos (by norm_num), ht, hn]
  rfl

theorem squareFloat64_replicate_181 :
    squareFloat64 (List.replicate 274936639747 181) = 9007199254751468 := by
  have hrep : List.replicate 274936639747 (181 : Int)
      = List.replicate 274936639746 181 ++ [181] := List.replicate_succ' 274936639746 181
  have h181 : ∀ x ∈ List.replicate 274936639746 (181 : Int), |x| ≤ 181 := by
    intro x hx
    rw [List.eq_of_mem_replicate hx]
    norm_num
  have hsum : exactSumSquares (List.replicate 274936639746 (181 : Int)) = 9007199254718706 := by
    rw [exactSumSquares_replicate]; norm_num
  have hacc := squareFloat64_eq_exactSumSquares _ h181 (by rw [hsum]; norm_num)
  rw [hrep, squareFloat64_concat, hacc, hsum]
  have hstep : squareStep 9007199254718706 181 = 9007199254751467 := by decide
  rw [hstep]
  exact roundFloat64_above_two_pow_53

/-! ## Accuracy of the rounded operations -/

theorem roundHalfEven_sub_le (x : ℚ) : |(roundHalfEven x : ℚ) - x| ≤ 1 / 2 := by
  have h1 := Int.floor_le x
  have h2 := Int.lt_floor_add_one x
  unfold roundHalfEven
  simp only []
  split_ifs <;> push_cast <;> rw [abs_le] <;> constructor <;> linarith

/-- In the range of the normal `float64` values the rounded value is finite and
within the relative error `2 ^ (-53)` of the rational. -/
theorem roundToFloat64_spec (q : ℚ) (hq : 0 < q) (hlo : (2 : ℚ) ^ (-1022 : ℤ) ≤ q)
    (hhi : q < (2 : ℚ) ^ (1023 : ℤ)) :
    ∃ r : ℚ, roundToFloat64 q = .finite r ∧ |r - q| ≤ 2 ^ (-53 : ℤ) * q := by
  have hb : 1 < 2 := by norm_num
  have habs : |q| = q := abs_of_pos hq
  have hL1 : (2 : ℚ) ^ Int.log 2 q ≤ q := by
    have := Int.zpow_log_le_self hb hq
    exact_mod_cast this
  have hLlo : -1022 ≤ Int.log 2 q :=
    (Int.zpow_le_iff_le_log hb hq).1 (by exact_mod_cast hlo)
  have hmax : max (Int.log 2 q - 52) (-1074) = Int.log 2 q - 52 := max_eq_left (by omega)
  have h2e : (0 : ℚ) < 2 ^ (Int.log 2 q - 52) := zpow_pos (by norm_num) _
  have hr := roundHalfEven_sub_le (q / 2 ^ (Int.log 2 q - 52))
  have herr : |(roundHalfEven (q / 2 ^ (Int.log 2 q - 52)) : ℚ) * 2 ^ (Int.log 2 q - 52) - q|
      ≤ 2 ^ (-53 : ℤ) * q := by
    have e1 : (roundHalfEven (q / 2 ^ (Int.log 2 q - 52)) : ℚ) * 2 ^ (Int.log 2 q - 52) - q
        = ((roundHalfEven (q / 2 ^ (Int.log 2 q - 52)) : ℚ) - q / 2 ^ (Int.log 2 q - 52))
            * 2 ^ (Int.log 2 q - 52) := by
      field_simp
    rw [e1, abs_mul, abs_of_pos h2e]
    have e2 : (2 : ℚ) ^ (Int.log 2 q - 52) = 2 ^ (-52 : ℤ) * 2 ^ Int.log 2 q := by
      rw [← zpow_add₀ (by norm_num)]; congr 1; ring
    calc |(roundHalfEven (q / 2 ^ (Int.log 2 q - 52)) : ℚ) - q / 2 ^ (Int.log 2 q - 52)|
            * 2 ^ (Int.log 2 q - 52)
          ≤ 1 / 2 * 2 ^ (Int.log 2 q - 52) := mul_le_mul_of_nonneg_right hr h2e.le
      _ = 2 ^ (-53 : ℤ) * 2 ^ Int.log 2 q := by rw [e2]; norm_num; ring
      _ ≤ 2 ^ (-53 : ℤ) * q := mul_le_mul_of_nonneg_left hL1 (by positivity)
  refine ⟨(roundHalfEven (q / 2 ^ (Int.log 2 q - 52)) : ℚ) * 2 ^ (Int.log 2 q - 52), ?_, herr⟩
  unfold roundToFloat64
  rw [if_neg hq.ne']
  simp only []
  rw [habs, hmax, if_neg]
  rw [not_le]
  have h3 := (abs_le.1 herr).2
  have h4 := (abs_le.1 herr).1
  have h5 : (2 : ℚ) ^ (-53 : ℤ) * q ≤ q := by
    have : (2 : ℚ) ^ (-53 : ℤ) ≤ 1 := by norm_num
    nlinarith
  have h6 : (2 : ℚ) ^ (1023 : ℤ) + 2 ^ (1023 : ℤ) = 2 ^ 1024 := by norm_num
  rw [abs_lt]
  constructor
  · have : (0 : ℚ) < 2 ^ 1024 := by positivity
    linarith
  · linarith

/-- The rounded root is within the relative error `2 ^ (-53)` of the real
square root. -/
theorem sqrtToFloat64_spec (q : ℚ) (hq : 0 < q) :
    |((sqrtToFloat64 q : ℚ) : ℝ) - Real.sqrt (q : ℝ)| ≤ 2 ^ (-53 : ℤ) * Real.sqrt (q : ℝ) := by
  have hb : 1 < 2 := by norm_num
  set L := Int.log 2 q with hLdef
  set h : ℤ := L / 2 - 52 with hh
  have hL1 : (2 : ℚ) ^ L ≤ q := by
    have := Int.zpow_log_le_self hb hq
    exact_mod_cast this
  have h4h : (0 : ℚ) < 4 ^ h := zpow_pos (by norm_num) h
  have hX : (0 : ℚ) ≤ 4 * (q / 4 ^ h) := by positivity
  set n : ℕ := ⌊4 * (q / 4 ^ h)⌋₊ with hn
  set s : ℕ := Nat.sqrt n with hs
  set m : ℕ := (s + 1) / 2 with hm
  have hr : sqrtToFloat64 q = (m : ℚ) * 2 ^ h := rfl
  -- the integer facts
  have hs1 : s * s ≤ n := Nat.sqrt_le n
  have hs2 : n < (s + 1) * (s + 1) := Nat.lt_succ_sqrt n
  have hn1 : (n : ℚ) ≤ 4 * (q / 4 ^ h) := Nat.floor_le hX
  have hn2 : 4 * (q / 4 ^ h) < (n : ℚ) + 1 := Nat.lt_floor_add_one _
  have hm1 : 2 * m ≤ s + 1 := by omega
  have hm2 : s + 1 ≤ 2 * m + 1 := by omega
  -- in the reals
  set y : ℝ := Real.sqrt ((4 * (q / 4 ^ h) : ℚ) : ℝ) with hy
  have hXr : (0 : ℝ) ≤ ((4 * (q / 4 ^ h) : ℚ) : ℝ) := by exact_mod_cast hX
  have hy0 : 0 ≤ y := Real.sqrt_nonneg _
  have hyy : y * y = ((4 * (q / 4 ^ h) : ℚ) : ℝ) := Real.mul_self_sqrt hXr
  have hsy : (s : ℝ) ≤ y := by
    apply Real.le_sqrt_of_sq_le
    have : ((s * s : ℕ) : ℚ) ≤ 4 * (q / 4 ^ h) := le_trans (by exact_mod_cast hs1) hn1
    have h' : (((s * s : ℕ) : ℚ) : ℝ) ≤ ((4 * (q / 4 ^ h) : ℚ) : ℝ) := by exact_mod_cast this
    rw [sq]
    push_cast at h' ⊢
    exact h'
  have hys : y < (s : ℝ) + 1 := by
    have h1 : (4 * (q / 4 ^ h) : ℚ) < (((s + 1) * (s + 1) : ℕ) : ℚ) := by
      have : (n : ℚ) + 1 ≤ (((s + 1) * (s + 1) : ℕ) : ℚ) := by exact_mod_cast hs2
      linarith
    have h2 : ((4 * (q / 4 ^ h) : ℚ) : ℝ) < ((((s + 1) * (s + 1) : ℕ) : ℚ) : ℝ) := by
      exact_mod_cast h1
    by_contra hcon
    rw [not_lt] at hcon
    have h3 : ((s : ℝ) + 1) * ((s : ℝ) + 1) ≤ y * y :=
      mul_self_le_mul_self (by positivity) hcon
    rw [hyy] at h3
    push_cast at h2 h3
    linarith
  have hmy : |(m : ℝ) - y / 2| ≤ 1 / 2 := by
    have a1 : (2 * m : ℝ) ≤ s + 1 := by exact_mod_cast hm1
    have a2 : (s : ℝ) + 1 ≤ 2 * m + 1 := by exact_mod_cast hm2
    rw [abs_le]
    constructor <;> linarith
  -- the root of q
  have h2h : (0 : ℝ) < 2 ^ h := zpow_pos (by norm_num) h
  have hsq : Real.sqrt (q : ℝ) = y / 2 * 2 ^ h := by
    have hnn : (0 : ℝ) ≤ y / 2 * 2 ^ h := by positivity
    rw [Real.sqrt_eq_iff_mul_self_eq (by exact_mod_cast hq.le) hnn]
    have e1 : y / 2 * 2 ^ h * (y / 2 * 2 ^ h) = (y * y) / 4 * (2 ^ h * 2 ^ h) := by ring
    have e2 : (2 : ℝ) ^ h * 2 ^ h = 4 ^ h := by
      rw [← mul_zpow]; norm_num
    rw [e1, hyy, e2]
    push_cast
    have : (4 : ℝ) ^ h ≠ 0 := by positivity
    field_simp
    ring
  -- the root is at least 2 ^ (h + 52)
  have hlow : (2 : ℝ) ^ (h + 52) ≤ Real.sqrt (q : ℝ) := by
    apply Real.le_sqrt_of_sq_le
    have e3 : ((2 : ℝ) ^ (h + 52)) ^ 2 = 2 ^ (2 * (h + 52)) := by
      rw [← zpow_natCast, ← zpow_mul]; congr 1; ring
    rw [e3]
    have hle : 2 * (h + 52) ≤ L := by omega
    have h5 : (2 : ℝ) ^ (2 * (h + 52)) ≤ 2 ^ L := zpow_le_zpow_right₀ (by norm_num) hle
    have h6 : ((2 : ℚ) ^ L : ℝ) ≤ (q : ℝ) := by exact_mod_cast hL1
    exact le_trans h5 (by simpa using h6)
  rw [hr, hsq]
  push_cast
  have e4 : (m : ℝ) * 2 ^ h - y / 2 * 2 ^ h = ((m : ℝ) - y / 2) * 2 ^ h := by ring
  rw [e4, abs_mul, abs_of_pos h2h, ← hsq]
  have e5 : (2 : ℝ) ^ (h + 52) = 2 ^ h * 2 ^ (52 : ℤ) := zpow_add₀ (by norm_num) _ _
  calc |(m : ℝ) - y / 2| * 2 ^ h ≤ 1 / 2 * 2 ^ h := mul_le_mul_of_nonneg_right hmy h2h.le
    _ = 2 ^ (-53 : ℤ) * (2 : ℝ) ^ (h + 52) := by rw [e5]; norm_num; ring
    _ ≤ 2 ^ (-53 : ℤ) * Real.sqrt (q : ℝ) := mul_le_mul_of_nonneg_left hlow (by positivity)

/-! ## The value of line 74 -/

theorem roundFloat64_natCast (n : Nat) (h : n < 2 ^ 53) : roundFloat64 (n : Int) = n := by
  apply roundFloat64_of_lt
  rw [abs_of_nonneg (Int.natCast_nonneg n)]
  exact_mod_cast h

/-- On a buffer of fewer than 274936639747 samples of absolute value at most
181 the operands of line 74 are the exact sum of squares and the length. -/
theorem rms_eq_of_abs_le_181 (samples : List Int) (h : ∀ x ∈ samples, |x| ≤ 181)
    (hlen : samples.length < 274936639747) :
    squareFloat64 samples = exactSumSquares samples ∧
    rms samples = mathSqrt (float64Div (exactSumSquares samples) (samples.length : Int)) := by
  have hle := exactSumSquares_le samples h
  have hl : (samples.length : Int) < 274936639747 := by exact_mod_cast hlen
  have hsum : exactSumSquares samples < 2 ^ 53 := by
    have : (32761 : Int) * (samples.length : Int) < 2 ^ 53 := by omega
    omega
  have hacc := squareFloat64_eq_exactSumSquares samples h hsum
  refine ⟨hacc, ?_⟩
  unfold rms
  rw [hacc, roundFloat64_natCast _ (by omega)]

theorem mathSqrt_zero : mathSqrt (.finite 0) = .finite 0 := by
  simp [mathSqrt]

theorem float64Div_zero (n : Int) (hn : n ≠ 0) : float64Div 0 n = .finite 0 := by
  simp [float64Div, hn, roundToFloat64]

theorem abs_sqrt_sub_sqrt_le (a b : ℝ) (ha : 0 ≤ a) (hb : 0 < b) :
    |Real.sqrt a - Real.sqrt b| * Real.sqrt b ≤ |a - b| := by
  have hsa := Real.sqrt_nonneg a
  have hsb := Real.sqrt_nonneg b
  have e : a - b = (Real.sqrt a - Real.sqrt b) * (Real.sqrt a + Real.sqrt b) := by
    have h1 := Real.mul_self_sqrt ha
    have h2 := Real.mul_self_sqrt hb.le
    nlinarith
  rw [e, abs_mul, abs_of_nonneg (add_nonneg hsa hsb)]
  apply mul_le_mul_of_nonneg_left _ (abs_nonneg _)
  linarith

/-- For a sum `S ≥ 0` below `2 ^ 53` and a length `0 < n` below `2 ^ 53` line 74
yields a finite value, not negative, within the relative error `2 ^ (-51)` of
the real `sqrt (S / n)`. -/
theorem mathSqrt_float64Div_spec (S : Int) (n : Nat) (hS0 : 0 ≤ S)
    (hS : S ≤ 32761 * (n : Int)) (hn0 : 0 < n) (hn : n < 2 ^ 53) :
    ∃ r : ℚ, mathSqrt (float64Div S (n : Int)) = .finite r ∧ 0 ≤ r ∧
      |(r : ℝ) - Real.sqrt ((S : ℝ) / (n : ℝ))|
        ≤ 2 ^ (-51 : ℤ) * Real.sqrt ((S : ℝ) / (n : ℝ)) := by
  have hnz : (n : Int) ≠ 0 := by exact_mod_cast hn0.ne'
  rcases hS0.eq_or_lt with h0 | hpos
  · refine ⟨0, ?_, le_rfl, ?_⟩
    · rw [← h0, float64Div_zero _ hnz, mathSqrt_zero]
    · rw [← h0]; simp
  · -- the quotient
    have hnq : (0 : ℚ) < (n : ℚ) := by exact_mod_cast hn0
    have hSq : (1 : ℚ) ≤ (S : ℚ) := by exact_mod_cast hpos
    have hq : (0 : ℚ) < (S : ℚ) / (n : ℚ) := by positivity
    have hqhi : (S : ℚ) / (n : ℚ) ≤ 32761 := by
      rw [div_le_iff₀ hnq]; exact_mod_cast hS
    have hqlo : (2 : ℚ) ^ (-1022 : ℤ) ≤ (S : ℚ) / (n : ℚ) := by
      rw [le_div_iff₀ hnq]
      have h1 : (n : ℚ) < 2 ^ 53 := by exact_mod_cast hn
      have h2 : (2 : ℚ) ^ (-1022 : ℤ) * (n : ℚ) ≤ 2 ^ (-1022 : ℤ) * 2 ^ 53 :=
        mul_le_mul_of_nonneg_left h1.le (by positivity)
      have h3 : (2 : ℚ) ^ (-1022 : ℤ) * 2 ^ 53 ≤ 1 := by
        rw [← zpow_natCast, ← zpow_add₀ (by norm_num)]
        exact zpow_le_one_of_nonpos₀ (by norm_num) (by norm_num)
      linarith
    obtain ⟨q', hq', herr⟩ := roundToFloat64_spec _ hq hqlo
      (lt_of_le_of_lt hqhi (by norm_num))
    have hε : (2 : ℚ) ^ (-53 : ℤ) ≤ 1 / 2 := by norm_num
    have hq'pos : 0 < q' := by
      have := (abs_le.1 herr).1
      nlinarith
    have hdiv : float64Div S (n : Int) = .finite q' := by
      unfold float64Div
      rw [if_neg hnz]
      push_cast
      exact hq'
    have hsqrt : mathSqrt (.finite q') = .finite (sqrtToFloat64 q') := by
      simp [mathSqrt, not_lt.2 hq'pos.le, hq'pos.ne']
    have hroot := sqrtToFloat64_spec q' hq'pos
    refine ⟨sqrtToFloat64 q', by rw [hdiv, hsqrt], ?_, ?_⟩
    · unfold sqrtToFloat64
      positivity
    · -- the two rounding errors
      set q : ℝ := (S : ℝ) / (n : ℝ) with hqdef
      have hqc : (((S : ℚ) / (n : ℚ) : ℚ) : ℝ) = q := by push_cast; rfl
      have hqr : 0 < q := by rw [← hqc]; exact_mod_cast hq
      have herr' : |(q' : ℝ) - q| ≤ 2 ^ (-53 : ℤ) * q := by
        have hc := (Rat.cast_le (K := ℝ)).2 herr
        rw [Rat.cast_abs] at hc
        push_cast at hc
        exact hc
      have hsq0 := Real.sqrt_pos.2 hqr
      have h1 := abs_sqrt_sub_sqrt_le (q' : ℝ) q (by exact_mod_cast hq'pos.le) hqr
      have hqq : q = Real.sqrt q * Real.sqrt q := (Real.mul_self_sqrt hqr.le).symm
      have h2 : |Real.sqrt (q' : ℝ) - Real.sqrt q| ≤ 2 ^ (-53 : ℤ) * Real.sqrt q := by
        have : |Real.sqrt (q' : ℝ) - Real.sqrt q| * Real.sqrt q
            ≤ 2 ^ (-53 : ℤ) * Real.sqrt q * Real.sqrt q := by
          calc |Real.sqrt (q' : ℝ) - Real.sqrt q| * Real.sqrt q ≤ |(q' : ℝ) - q| := h1
            _ ≤ 2 ^ (-53 : ℤ) * q := herr'
            _ = 2 ^ (-53 : ℤ) * Real.sqrt q * Real.sqrt q := by rw [mul_assoc, ← hqq]
        exact le_of_mul_le_mul_right this hsq0
      have h3 : Real.sqrt (q' : ℝ) ≤ Real.sqrt q + 2 ^ (-53 : ℤ) * Real.sqrt q := by
        have := (abs_le.1 h2).2; linarith
      have hε' : (2 : ℝ) ^ (-53 : ℤ) ≤ 1 := by norm_num
      have hε0 : (0 : ℝ) ≤ 2 ^ (-53 : ℤ) := by positivity
      have e51 : (2 : ℝ) ^ (-51 : ℤ) = 4 * 2 ^ (-53 : ℤ) := by norm_num
      have h4 : 2 ^ (-53 : ℤ) * Real.sqrt (q' : ℝ) ≤ 2 * (2 ^ (-53 : ℤ) * Real.sqrt q) := by
        have : 2 ^ (-53 : ℤ) * Real.sqrt (q' : ℝ)
            ≤ 2 ^ (-53 : ℤ) * (Real.sqrt q + 2 ^ (-53 : ℤ) * Real.sqrt q) :=
          mul_le_mul_of_nonneg_left h3 hε0
        have h5 : (2 : ℝ) ^ (-53 : ℤ) * (2 ^ (-53 : ℤ) * Real.sqrt q)
            ≤ 1 * (2 ^ (-53 : ℤ) * Real.sqrt q) :=
          mul_le_mul_of_nonneg_right hε' (by positivity)
        linarith
      calc |((sqrtToFloat64 q' : ℚ) : ℝ) - Real.sqrt q|
          ≤ |((sqrtToFloat64 q' : ℚ) : ℝ) - Real.sqrt (q' : ℝ)|
              + |Real.sqrt (q' : ℝ) - Real.sqrt q| := abs_sub_le _ _ _
        _ ≤ 2 ^ (-53 : ℤ) * Real.sqrt (q' : ℝ) + 2 ^ (-53 : ℤ) * Real.sqrt q :=
            add_le_add hroot h2
        _ ≤ 2 ^ (-51 : ℤ) * Real.sqrt q := by
            rw [e51]
            have : (0 : ℝ) ≤ 2 ^ (-53 : ℤ) * Real.sqrt q := by positivity
            linarith

/-- The value of line 74 from the values of its operands. -/
theorem rms_of_operands (samples : List Int) (a : Int) (n : Nat)
    (ha : squareFloat64 samples = a) (hn : samples.length = n) (hlt : n < 2 ^ 53) :
    rms samples = mathSqrt (float64Div a (n : Int)) := by
  unfold rms
  rw [ha, hn, roundFloat64_natCast n hlt]

theorem rms_nil : rms [] = .NaN := by
  rw [rms_of_operands [] 0 0 rfl rfl (by norm_num)]
  simp [float64Div, mathSqrt]

theorem float64Div_one (a : Int) (ha : |a| < 2 ^ 53) :
    float64Div a ((1 : Nat) : Int) = .finite (a : ℚ) := by
  unfold float64Div
  rw [if_neg (by norm_num)]
  simpa using roundToFloat64_intCast a ha

/-! ## The claims on the new-sample callback -/

/-- C4, at the buffer `[256]`: the `int16` product `256 * 256` wraps to `0`,
so the accumulator holds `0` and not the sum of squares `65536`; the callback
prints the square root of `0 / 1`, which is `0` and not `256`. -/
theorem square_wraps_at_256 :
    IsInt16 256 ∧ square [256] = 0 ∧ squareFloat64 [256] = 0 ∧
    exactSumSquares [256] = 65536 ∧
    NewSampleFunc (Sink.ofSamples [256]) = some (.FlowOK, [.finite 0]) ∧
    Float64.finite 0 ≠ Float64.finite 256 := by
  refine ⟨by decide, by decide, by decide, by decide, ?_, by simp⟩
  have h : rms [256] = .finite 0 := by
    rw [rms_of_operands [256] 0 1 (by decide) rfl (by norm_num),
      float64Div_zero _ (by norm_num), mathSqrt_zero]
  simp [NewSampleFunc, Sink.ofSamples, h]

/-- C5, at the single sample `-32768`: the value under the square root is
`0`, not `(-32768) ^ 2`, so the printed rms is `0` and not `32768`. -/
theorem rms_single_min_int16 :
    IsInt16 (-32768) ∧
    NewSampleFunc (Sink.ofSamples [-32768]) = some (.FlowOK, [.finite 0]) ∧
    Float64.finite 0 ≠ Float64.finite 32768 ∧
    squareFloat64 [-32768] = 0 ∧
    (Rms.mk (square [-32768]) 1).radicand = 0 ∧
    (Rms.mk (square [-32768]) 1).radicand ≠ (-32768 : ℚ) ^ 2 := by
  have hs : square [-32768] = 0 := by decide
  refine ⟨by decide, ?_, by simp, by decide, ?_, ?_⟩
  · have h : rms [-32768] = .finite 0 := by
      rw [rms_of_operands [-32768] 0 1 (by decide) rfl (by norm_num),
        float64Div_zero _ (by norm_num), mathSqrt_zero]
    simp [NewSampleFunc, Sink.ofSamples, h]
  · simp [Rms.radicand, hs]
  · rw [hs]; norm_num [Rms.radicand]

/-- C6, at the buffer `[182]`: the `int16` product `182 * 182` wraps to
`-32412`, so the sum under the square root is negative and the printed value
is not a number. -/
theorem square_negative_at_182 :
    IsInt16 182 ∧ square [182] = -32412 ∧ squareFloat64 [182] = -32412 ∧
    NewSampleFunc (Sink.ofSamples [182]) = some (.FlowOK, [.NaN]) ∧
    (Rms.mk (square [182]) 1).radicand < 0 := by
  refine ⟨by decide, by decide, by decide, ?_, ?_⟩
  · have h : rms [182] = .NaN := by
      rw [rms_of_operands [182] (-32412) 1 (by decide) rfl (by norm_num),
        float64Div_one _ (by norm_num)]
      simp [mathSqrt]
    simp [NewSampleFunc, Sink.ofSamples, h]
  · have : square [182] = -32412 := by decide
    rw [this]; norm_num [Rms.radicand]

/-- C7 as stated fails on a sample whose buffer is present and cannot be
mapped for reading: whether the expression of line 66 then yields no slice or
an (empty) slice, the callback does not return `FlowError`. -/
theorem newSample_unmappable_not_error :
    (NewSampleFunc ⟨some ⟨some ⟨false, none⟩⟩⟩).map Prod.fst ≠ some FlowReturn.FlowError ∧
    NewSampleFunc ⟨some ⟨some ⟨false, none⟩⟩⟩ = none ∧
    NewSampleFunc ⟨some ⟨some ⟨false, some []⟩⟩⟩ = some (.FlowOK, [.NaN]) := by
  refine ⟨by simp [NewSampleFunc], by simp [NewSampleFunc], ?_⟩
  simp [NewSampleFunc, rms_nil]

/-- C7, amended: the callback returns `FlowEOS` exactly when the pulled sample
is nil, `FlowError` exactly when the sample is present and its buffer is nil,
and `FlowOK` exactly when the buffer is present and maps to a slice, whatever
the slice holds (the empty slice included); it prints one rms value when it
returns `FlowOK` and none otherwise. -/
theorem newSample_flow (sink : Sink) :
    ((NewSampleFunc sink).map Prod.fst = some .FlowEOS ↔ sink.pullSample = none) ∧
    ((NewSampleFunc sink).map Prod.fst = some .FlowError ↔
      ∃ s, sink.pullSample = some s ∧ s.getBuffer = none) ∧
    ((NewSampleFunc sink).map Prod.fst = some .FlowOK ↔
      ∃ s b samples, sink.pullSample = some s ∧ s.getBuffer = some b ∧
        b.mapAsInt16Slice = some samples) ∧
    (∀ s b samples, sink.pullSample = some s → s.getBuffer = some b →
        b.mapAsInt16Slice = some samples →
        NewSampleFunc sink = some (.FlowOK, [rms samples])) ∧
    (∀ flow out, NewSampleFunc sink = some (flow, out) →
        out.length = if flow = .FlowOK then 1 else 0) := by
  obtain ⟨pull⟩ := sink
  cases pull with
  | none => simp [NewSampleFunc]
  | some s =>
    obtain ⟨buf⟩ := s
    cases buf with
    | none =>
      simp [NewSampleFunc]
      rintro s b xs rfl h
      simp at h
    | some b =>
      obtain ⟨mp, m⟩ := b
      cases m with
      | none =>
        simp [NewSampleFunc]
        rintro s b xs rfl h
        simp only [Option.some.injEq] at h
        subst h
        simp
      | some samples =>
        simp only [NewSampleFunc]
        refine ⟨by simp, by simp, by simp, ?_, ?_⟩
        · intro s b xs h1 h2 h3
          simp only [Option.some.injEq] at h1
          subst h1
          simp only [Option.some.injEq] at h2
          subst h2
          simp only [Option.some.injEq] at h3
          subst h3
          rfl
        · intro flow out h
          simp only [Option.some.injEq, Prod.mk.injEq] at h
          obtain ⟨h1, h2⟩ := h
          subst h1; subst h2
          simp

/-- C9 as stated fails on the buffer of 274936639747 samples of value `181`:
the sum of squares `9007199254751467` is above `2 ^ 53` and is no `float64`,
and the last addition rounds the accumulator to `9007199254751468`. -/
theorem squareFloat64_rounds_on_long_buffer :
    List.replicate 274936639747 (181 : Int) ≠ [] ∧
    (∀ x ∈ List.replicate 274936639747 (181 : Int), |x| ≤ 181) ∧
    exactSumSquares (List.replicate 274936639747 181) = 9007199254751467 ∧
    squareFloat64 (List.replicate 274936639747 181) = 9007199254751468 ∧
    squareFloat64 (List.replicate 274936639747 181)
      ≠ exactSumSquares (List.replicate 274936639747 181) := by
  have hsum : exactSumSquares (List.replicate 274936639747 (181 : Int)) = 9007199254751467 := by
    rw [exactSumSquares_replicate]; norm_num
  refine ⟨?_, ?_, hsum, squareFloat64_replicate_181, ?_⟩
  · intro hnil
    have := congrArg List.length hnil
    rw [List.length_replicate, List.length_nil] at this
    exact absurd this (by norm_num)
  · intro x hx
    rw [List.eq_of_mem_replicate hx]
    norm_num
  · rw [hsum, squareFloat64_replicate_181]
    norm_num

/-- C9, amended: on a non-empty buffer of fewer than 274936639747 samples, all
of absolute value at most 181, the `float64` accumulator holds the exact sum of
squares, and the callback returns `FlowOK` and prints
`math.Sqrt(sum / float64(n))`: a finite `float64`, not negative, within the
relative error `2 ^ (-51)` of the real square root of `sum / n`; a buffer of
zeros prints `0`. -/
theorem rms_of_abs_le_181 (samples : List Int) (hne : samples ≠ [])
    (h : ∀ x ∈ samples, |x| ≤ 181) (hlen : samples.length < 274936639747) :
    squareFloat64 samples = exactSumSquares samples ∧
    square samples = exactSumSquares samples ∧
    0 ≤ exactSumSquares samples ∧
    NewSampleFunc (Sink.ofSamples samples)
      = some (.FlowOK,
          [mathSqrt (float64Div (exactSumSquares samples) (samples.length : Int))]) ∧
    (∃ r : ℚ, NewSampleFunc (Sink.ofSamples samples) = some (.FlowOK, [.finite r]) ∧ 0 ≤ r ∧
      |(r : ℝ) - Real.sqrt ((exactSumSquares samples : ℝ) / (samples.length : ℝ))|
        ≤ 2 ^ (-51 : ℤ)
            * Real.sqrt ((exactSumSquares samples : ℝ) / (samples.length : ℝ))) ∧
    ((∀ x ∈ samples, x = 0) →
      NewSampleFunc (Sink.ofSamples samples) = some (.FlowOK, [.finite 0])) := by
  obtain ⟨hacc, hrms⟩ := rms_eq_of_abs_le_181 samples h hlen
  have hnew : NewSampleFunc (Sink.ofSamples samples)
      = some (.FlowOK,
          [mathSqrt (float64Div (exactSumSquares samples) (samples.length : Int))]) := by
    simp [NewSampleFunc, Sink.ofSamples, hrms]
  have hpos : 0 < samples.length := List.length_pos.2 hne
  refine ⟨hacc, square_eq_exactSumSquares samples h, exactSumSquares_nonneg samples,
    hnew, ?_, ?_⟩
  · obtain ⟨r, hr, hr0, hr1⟩ := mathSqrt_float64Div_spec (exactSumSquares samples)
      samples.length (exactSumSquares_nonneg samples) (exactSumSquares_le samples h) hpos
      (by omega)
    exact ⟨r, by rw [hnew, hr], hr0, hr1⟩
  · intro hz
    have h0 : exactSumSquares samples = 0 := by
      unfold exactSumSquares
      apply List.sum_eq_zero
      intro y hy
      rw [List.mem_map] at hy
      obtain ⟨x, hx, rfl⟩ := hy
      rw [hz x hx]; rfl
    rw [hnew, h0, float64Div_zero _ (by exact_mod_cast hpos.ne'), mathSqrt_zero]

/-- C9 at the buffers `[3, 4]` and `[0, 0, 0, 0]`: the first prints the
`float64` nearest to the square root of `12.5`, which is
`7961314590657216 / 2 ^ 51 = 3.5355339059327378...`, the second prints `0`. -/
theorem rms_of_abs_le_181_witness :
    NewSampleFunc (Sink.ofSamples [3, 4])
      = some (.FlowOK, [.finite (7961314590657216 / 2 ^ 51)]) ∧
    ((7961314590657216 - 1 / 2) / 2 ^ 51 : ℚ) ^ 2 < 25 / 2 ∧
    (25 / 2 : ℚ) < ((7961314590657216 + 1 / 2) / 2 ^ 51) ^ 2 ∧
    NewSampleFunc (Sink.ofSamples [0, 0, 0, 0]) = some (.FlowOK, [.finite 0]) := by
  have h34 := rms_of_abs_le_181 [3, 4] (by decide) (by decide) (by norm_num)
  have h0 := rms_of_abs_le_181 [0, 0, 0, 0] (by decide) (by decide) (by norm_num)
  refine ⟨?_, by norm_num, by norm_num, h0.2.2.2.2.2 (by decide)⟩
  have hsum : exactSumSquares [3, 4] = 25 := by decide
  have hdiv : float64Div 25 ((2 : Nat) : Int) = .finite (25 / 2) := by
    have := roundToFloat64_representable 25 (-1) (by norm_num) (by norm_num) (by norm_num)
    unfold float64Div
    rw [if_neg (by norm_num)]
    norm_num at this ⊢
    exact this
  have hlog : Int.log 2 (25 / 2 : ℚ) = 3 := by
    apply log_two_eq <;> norm_num
  have hroot : sqrtToFloat64 (25 / 2) = 7961314590657216 / 2 ^ 51 := by
    norm_num [sqrtToFloat64, hlog]
  have hsqrt : mathSqrt (.finite (25 / 2)) = .finite (7961314590657216 / 2 ^ 51) := by
    rw [← hroot]
    norm_num [mathSqrt]
  have h := h34.2.2.2.1
  rw [hsum] at h
  rw [h]
  show some (FlowReturn.FlowOK, [mathSqrt (float64Div 25 ((2 : Nat) : Int))]) = _
  rw [hdiv, hsqrt]

end AppSink
